import Mathlib

/-!
Verification of the UrbanFlow core (`src/urbanflow/core.py`) against its
natural-language specification.

The Python module is shallowly embedded below:
* a Python `dict` becomes an insertion-ordered association list,
* Python strings become Lean `String`s (`str.join` / `str.split` are
  modelled by `pyJoin` / `pySplit`, which mirror CPython's semantics for a
  non-empty separator),
* the non-fatal `warnings.warn` diagnostics become explicit values threaded
  through the return types,
* the recursive DFS `find_paths` is defined through a fuel parameter; the
  fuel `max_path_length + 1 - len(path)` reproduces the Python recursion
  exactly, because each recursive call grows `path` by one node and the
  guard `len(path) >= max_path_length` stops every branch before the fuel
  can run out (when the fuel is 0 the current length already exceeds
  `max_path_length`, and the function returns `[]` in both cases).
-/

namespace UrbanFlow

/-- Node identifier (`Node = str` in core.py). -/
abbrev Node := String

/-- Directed edge (`Edge = Tuple[Node, Node]`). -/
abbrev Edge := Node × Node

/-- A path (`PathType = List[Node]`). -/
abbrev PathT := List Node

/-- A Python dict from node to neighbour list, kept in insertion order. -/
abbrev Graph := List (Node × List Node)

/-- First-occurrence lookup in an association list (Python `d[k]` / `k in d`). -/
def alist_get {κ ν : Type} [DecidableEq κ] : List (κ × ν) → κ → Option ν
  | [], _ => none
  | (k, v) :: rest, key => if key = k then some v else alist_get rest key

/-- Python `d[k] = d.get(k, 0) + n`: bump the first occurrence, else append. -/
def dict_incr {κ : Type} [DecidableEq κ] : List (κ × Nat) → κ → Nat → List (κ × Nat)
  | [], key, n => [(key, n)]
  | (k, v) :: rest, key, n =>
    if key = k then (k, v + n) :: rest else (k, v) :: dict_incr rest key n

/-- Counter read-out: the stored count of a key, zero when absent. -/
def getCount {κ : Type} [DecidableEq κ] (d : List (κ × Nat)) (k : κ) : Nat :=
  (alist_get d k).getD 0

/-! ## Path enumerator (`find_paths`) -/

/-- Inner loop of `find_paths` (`for new_path in new_paths`): append each
newly found path and, as soon as the accumulated count reaches `max_paths`,
record the limit-reached warning for the current `(start, end)` frame and
stop (the Python code `warnings.warn(...)` followed by `return paths`).
Returns `(paths, warnings, stopped)`. -/
def append_until_limit (mp : Nat) (start finish : Node) :
    List PathT → List PathT → List (Node × Node) →
      List PathT × List (Node × Node) × Bool
  | [], paths, warns => (paths, warns, false)
  | np :: rest, paths, warns =>
    let paths' := paths ++ [np]
    if mp ≤ paths'.length then (paths', warns ++ [(start, finish)], true)
    else append_until_limit mp start finish rest paths' warns

/-- Outer loop of `find_paths` (`for node in graph[start]`): skip neighbours
already on the current path (`if node not in path`), obtain the recursive
result through `f` and feed it to `append_until_limit`; an early `return`
inside the inner loop also ends the outer loop. -/
def fp_loop (f : Node → List PathT × List (Node × Node)) (path : List Node)
    (mp : Nat) (start finish : Node) :
    List Node → List PathT → List (Node × Node) →
      List PathT × List (Node × Node)
  | [], paths, warns => (paths, warns)
  | node :: rest, paths, warns =>
    if node ∈ path then fp_loop f path mp start finish rest paths warns
    else
      let r := f node
      let t := append_until_limit mp start finish r.1 paths (warns ++ r.2)
      if t.2.2 then (t.1, t.2.1)
      else fp_loop f path mp start finish rest t.1 t.2.1

/-- Fuel-indexed body of `find_paths`; see the module docstring for why the
fuel chosen in `find_paths` makes this an exact embedding. -/
def find_paths_fuel (g : Graph) (finish : Node) (mpl mp : Nat) :
    Nat → Node → List Node → List PathT × List (Node × Node)
  | 0, _, _ => ([], [])
  | fuel + 1, start, path =>
    if mpl ≤ path.length then ([], [])
    else
      let path' := path ++ [start]
      if start = finish then ([path'], [])
      else
        match alist_get g start with
        | none => ([], [])
        | some nbrs =>
          fp_loop (fun node => find_paths_fuel g finish mpl mp fuel node path')
            path' mp start finish nbrs [] []

/-- `find_paths(graph, start, end, path, max_path_length, max_paths)` from
core.py (the parameter `end` is renamed `finish`; `path=None` at a call site
is the empty list).  The first component is the returned list of paths, the
second the list of `(start, end)` pairs for which the non-fatal
"Path enumeration limit reached" warning was emitted, in emission order. -/
def find_paths (g : Graph) (start finish : Node) (path : List Node)
    (mpl mp : Nat) : List PathT × List (Node × Node) :=
  find_paths_fuel g finish mpl mp (mpl + 1 - path.length) start path

/-! ## All-pairs orchestrator -/

/-- `find_all_paths_between_all_pairs(graph, max_path_length, max_paths_per_od)`:
the two nested `for` loops over `list(graph.keys())`, skipping `start == end`
and concatenating the per-pair results in order.  Components: all collected
paths, all limit warnings raised by the inner calls, and whether the final
`len(all_paths) > 10000` volume warning fired. -/
def find_all_paths_between_all_pairs (g : Graph) (mpl mp : Nat) :
    List PathT × List (Node × Node) × Bool :=
  let nodes := g.map Prod.fst
  let per := nodes.flatMap fun s => nodes.flatMap fun e =>
    if s = e then [] else [find_paths g s e [] mpl mp]
  let all_paths := per.flatMap Prod.fst
  (all_paths, per.flatMap Prod.snd, decide (10000 < all_paths.length))

/-! ## Aggregator -/

/-- Python `sep.join(nodes)` for a list of strings. -/
def pyJoin (sep : String) : List String → String
  | [] => ""
  | [x] => x
  | x :: y :: xs => x ++ sep ++ pyJoin sep (y :: xs)

/-- Worker for `pySplit`: scan left to right, break at each leftmost
non-overlapping occurrence of `sep`.  The fuel (initially the length of the
scanned text) only ever runs out on the empty remainder, which the first
equation already covers, so the value is fuel-independent. -/
def pySplitAux (sep : List Char) : Nat → List Char → List Char → List (List Char)
  | _, [], acc => [acc.reverse]
  | 0, s, acc => [acc.reverse ++ s]
  | fuel + 1, c :: rest, acc =>
    if sep.isPrefixOf (c :: rest) then
      acc.reverse :: pySplitAux sep fuel (rest.drop (sep.length - 1)) []
    else pySplitAux sep fuel rest (c :: acc)

/-- Python `s.split(sep)` for a non-empty separator. -/
def pySplit (sep s : String) : List String :=
  (pySplitAux sep.data s.data.length s.data []).map fun l => String.mk l

/-- `count_path_repetitions(all_paths)`: canonicalize each path with
`" -> ".join(path)` and count occurrences in an insertion-ordered dict. -/
def count_path_repetitions (all_paths : List PathT) : List (String × Nat) :=
  all_paths.foldl (fun d path => dict_incr d (pyJoin " -> " path) 1) []

/-- `count_edge_repetitions(path_repetitions)`: re-split every canonical
path string on `" -> "`, derive the consecutive edges and add the path's
repetition count to each edge occurrence. -/
def count_edge_repetitions (path_repetitions : List (String × Nat)) :
    List (Edge × Nat) :=
  path_repetitions.foldl
    (fun d entry =>
      let nodes := pySplit " -> " entry.1
      let edges := nodes.zip nodes.tail
      edges.foldl (fun d e => dict_incr d e entry.2) d)
    []

/-! ## Incidence builder -/

/-- The string key `f"{a}->{b}"` used for both edges and OD pairs. -/
def pairKey (e : Node × Node) : String := e.1 ++ "->" ++ e.2

/-- Python `set.add`: insertion-ordered and deduplicating. -/
def set_insert {α : Type} [DecidableEq α] (s : List α) (x : α) : List α :=
  if x ∈ s then s else s ++ [x]

/-- Python `set.update(xs)`. -/
def set_union {α : Type} [DecidableEq α] (s : List α) (xs : List α) : List α :=
  xs.foldl set_insert s

/-- Python `od_to_edges.setdefault(od, set()).update(edges)`. -/
def dict_update_set :
    List ((Node × Node) × List Edge) → Node × Node → List Edge →
      List ((Node × Node) × List Edge)
  | [], od, es => [(od, set_union [] es)]
  | (k, v) :: rest, od, es =>
    if od = k then (k, set_union v es) :: rest
    else (k, v) :: dict_update_set rest od es

/-- The `od_to_edges` dict of `build_od_incidence_matrix`: for every path of
at least two nodes, its OD pair `(path[0], path[-1])` accumulates the path's
edge set (`_format_path_as_edges(path)`, i.e. the consecutive pairs). -/
def od_to_edges (all_paths : List PathT) : List ((Node × Node) × List Edge) :=
  all_paths.foldl
    (fun d path =>
      if path.length < 2 then d
      else dict_update_set d (path.headD "", path.getLastD "") (path.zip path.tail))
    []

/-- Cell of the incidence DataFrame: 1 exactly when some OD entry with this
column key contains an edge with this row key, 0 otherwise (the DataFrame is
filled with zeros and `incidence.loc[edge_key, od_key] = 1` is run for
every edge of every OD entry). -/
def incidence_cell (ote : List ((Node × Node) × List Edge)) (ek ok : String) : Nat :=
  if ∃ kv ∈ ote, pairKey kv.1 = ok ∧ ∃ e ∈ kv.2, pairKey e = ek then 1 else 0

/-- The result of `build_od_incidence_matrix`: sorted row labels (edge keys),
sorted column labels (OD keys), the 0/1 cells, and the appended `SUM` column
(`incidence.sum(axis=1)`, the row-wise sum over the OD columns). -/
structure ODMatrix where
  edge_index : List String
  od_columns : List String
  cell : String → String → Nat
  row_sum : String → Nat

/-- `build_od_incidence_matrix(graph, all_paths)`; a `none` path set makes it
first enumerate all paths with the module defaults (15, 1000). -/
def build_od_incidence_matrix (g : Graph) (all_paths? : Option (List PathT)) :
    ODMatrix :=
  let all_paths := match all_paths? with
    | none => (find_all_paths_between_all_pairs g 15 1000).1
    | some ps => ps
  let ote := od_to_edges all_paths
  let edge_keys := ote.foldl (fun s kv => set_union s (kv.2.map pairKey)) []
  let od_keys := ote.foldl (fun s kv => set_insert s (pairKey kv.1)) []
  let edge_list := edge_keys.mergeSort fun a b => decide (a ≤ b)
  let od_list := od_keys.mergeSort fun a b => decide (a ≤ b)
  { edge_index := edge_list
    od_columns := od_list
    cell := incidence_cell ote
    row_sum := fun ek => (od_list.map (incidence_cell ote ek)).sum }

/-! ## Graph model, digraph materialization, facade -/

/-- `graph.setdefault(src, []).append(dst)`. -/
def setdefault_append : Graph → Node → Node → Graph
  | [], k, v => [(k, [v])]
  | (k', vs) :: rest, k, v =>
    if k = k' then (k', vs ++ [v]) :: rest
    else (k', vs) :: setdefault_append rest k v

/-- `graph.setdefault(dst, graph.get(dst, []))`: guarantee the key exists,
binding it to the empty list when it is new. -/
def ensure_key : Graph → Node → Graph
  | [], k => [(k, [])]
  | (k', vs) :: rest, k =>
    if k = k' then (k', vs) :: rest else (k', vs) :: ensure_key rest k

/-- `load_graph_from_edges(edges, source_col, target_col)`.  The DataFrame is
modelled by its column list and its rows, each row a function from column
name to the (string-coerced) cell value. -/
def load_graph_from_edges (columns : List String) (rows : List (String → String))
    (source_col target_col : String) : Except String Graph :=
  if source_col ∉ columns ∨ target_col ∉ columns then
    .error "Edges DataFrame must contain the source and target columns."
  else
    .ok (rows.foldl
      (fun g row =>
        ensure_key (setdefault_append g (row source_col) (row target_col))
          (row target_col))
      [])

/-- A `networkx.MultiDiGraph`: node set (insertion-ordered, deduplicated) and
edge list with multiplicities. -/
structure DiGraphM where
  nodes : List Node
  edges : List Edge
deriving DecidableEq

/-- `G.add_node(n)`. -/
def add_node (G : DiGraphM) (n : Node) : DiGraphM :=
  { G with nodes := set_insert G.nodes n }

/-- `G.add_edge(u, v)` (also inserts missing endpoints). -/
def add_edge (G : DiGraphM) (u v : Node) : DiGraphM :=
  { nodes := set_insert (set_insert G.nodes u) v, edges := G.edges ++ [(u, v)] }

/-- `build_digraph(graph)`. -/
def build_digraph (g : Graph) : DiGraphM :=
  let G := g.foldl (fun G kv => add_node G kv.1) ⟨[], []⟩
  g.foldl (fun G kv => kv.2.foldl (fun G dst => add_edge G kv.1 dst) G) G

/-- The argument passed to `analyze_network`: either an actual dict (a
`Graph`) or any non-dict Python value, of which only the truthiness
(`bool(value)`) is observable by the function. -/
inductive PyGraphArg : Type
  | dict (g : Graph)
  | other (truthy : Bool)

/-- Python `not graph`. -/
def py_falsy : PyGraphArg → Bool
  | .dict g => g.isEmpty
  | .other t => !t

/-- Python `isinstance(graph, dict)`. -/
def is_dict : PyGraphArg → Bool
  | .dict _ => true
  | .other _ => false

/-- The `UrbanFlowResult` dataclass. -/
structure UrbanFlowResult where
  graph : DiGraphM
  all_paths : List PathT
  path_repetitions : List (String × Nat)
  edge_repetitions : List (Edge × Nat)
  od_incidence : ODMatrix

/-- `analyze_network(graph, max_path_length, max_paths_per_od)`: validate the
input (`ValueError` on an empty or non-dict argument) and bundle the outputs
of the pipeline. -/
def analyze_network (arg : PyGraphArg) (mpl mp : Nat) :
    Except String UrbanFlowResult :=
  if py_falsy arg then .error "Graph cannot be empty"
  else
    match arg with
    | .other _ => .error "Graph must be a dict"
    | .dict g =>
      let all_paths := (find_all_paths_between_all_pairs g mpl mp).1
      let path_reps := count_path_repetitions all_paths
      let edge_reps := count_edge_repetitions path_reps
      let incidence := build_od_incidence_matrix g (some all_paths)
      let di_graph := build_digraph g
      .ok ⟨di_graph, all_paths, path_reps, edge_reps, incidence⟩

/-- Modelled from the spec (§3 Data Model, "Path"; §4.2): a genuine bounded
simple path from `s` to `t` — nonempty, consecutive edges present in the
graph, no repeated node, the degenerate single-node path accepted only for a
true self-loop, and at most `mpl` nodes.  Used only to express that a "real
path" was or was not omitted by the `max_paths` truncation (claim C1); every
other definition in this file is translated from the source. -/
def specSimplePath (g : Graph) (s t : Node) (mpl : Nat) (p : List Node) : Prop :=
  p.head? = some s ∧ p.getLast? = some t ∧ p.Nodup ∧ p.length ≤ mpl ∧
    List.Chain' (fun a b => b ∈ (alist_get g a).getD []) p ∧
    (p.length = 1 → s ∈ (alist_get g s).getD [])


/-! ## Helper lemmas about the enumerator loops -/

theorem append_until_limit_mem {mp : Nat} {s t : Node} :
    ∀ (nps paths : List PathT) (ws : List (Node × Node)) {q : PathT},
      q ∈ (append_until_limit mp s t nps paths ws).1 → q ∈ paths ∨ q ∈ nps := by
  intro nps
  induction nps with
  | nil =>
    intro paths ws q h
    simp only [append_until_limit] at h
    exact Or.inl h
  | cons np rest ih =>
    intro paths ws q h
    simp only [append_until_limit] at h
    by_cases hc : mp ≤ (paths ++ [np]).length
    · simp only [hc, if_true] at h
      rcases List.mem_append.1 h with h | h
      · exact Or.inl h
      · simp only [List.mem_singleton] at h
        exact Or.inr (by simp [h])
    · simp only [hc, if_false] at h
      rcases ih _ _ h with h | h
      · rcases List.mem_append.1 h with h | h
        · exact Or.inl h
        · simp only [List.mem_singleton] at h
          exact Or.inr (by simp [h])
      · exact Or.inr (List.mem_cons_of_mem _ h)

theorem append_until_limit_spec {mp : Nat} {s t : Node} :
    ∀ (nps paths : List PathT) (ws : List (Node × Node)),
      paths.length < mp →
      ((append_until_limit mp s t nps paths ws).2.2 = true →
        (append_until_limit mp s t nps paths ws).1.length = mp) ∧
      ((append_until_limit mp s t nps paths ws).2.2 = false →
        append_until_limit mp s t nps paths ws = (paths ++ nps, ws, false) ∧
          (paths ++ nps).length < mp) := by
  intro nps
  induction nps with
  | nil =>
    intro paths ws hlt
    constructor
    · intro h; simp [append_until_limit] at h
    · intro _; simp only [append_until_limit]
      exact ⟨by simp, by simpa using hlt⟩
  | cons np rest ih =>
    intro paths ws hlt
    simp only [append_until_limit]
    by_cases hc : mp ≤ (paths ++ [np]).length
    · simp only [hc, if_true]
      constructor
      · intro _
        simp only [List.length_append, List.length_singleton]
        simp only [List.length_append, List.length_singleton] at hc
        omega
      · intro h; exact absurd h (by simp)
    · simp only [hc, if_false]
      have hlt' : (paths ++ [np]).length < mp := by
        simp only [List.length_append, List.length_singleton] at hc ⊢
        omega
      obtain ⟨h1, h2⟩ := ih (paths ++ [np]) ws hlt'
      constructor
      · exact h1
      · intro h
        obtain ⟨heq, hlen⟩ := h2 h
        refine ⟨?_, ?_⟩
        · rw [heq]; simp
        · simpa using hlen

theorem fp_loop_mem {f : Node → List PathT × List (Node × Node)} {path : List Node}
    {mp : Nat} {s t : Node} :
    ∀ (nbrs : List Node) (paths : List PathT) (ws : List (Node × Node)) {q : PathT},
      q ∈ (fp_loop f path mp s t nbrs paths ws).1 →
      q ∈ paths ∨ ∃ n ∈ nbrs, n ∉ path ∧ q ∈ (f n).1 := by
  intro nbrs
  induction nbrs with
  | nil =>
    intro paths ws q h
    simp only [fp_loop] at h
    exact Or.inl h
  | cons node rest ih =>
    intro paths ws q h
    simp only [fp_loop] at h
    by_cases hmem : node ∈ path
    · simp only [hmem, if_true] at h
      rcases ih _ _ h with h | ⟨n, hn, hnp, hq⟩
      · exact Or.inl h
      · exact Or.inr ⟨n, List.mem_cons_of_mem _ hn, hnp, hq⟩
    · simp only [hmem, if_false] at h
      split at h
      · rcases append_until_limit_mem _ _ _ h with h | h
        · exact Or.inl h
        · exact Or.inr ⟨node, List.mem_cons_self _ _, hmem, h⟩
      · rcases ih _ _ h with h | ⟨n, hn, hnp, hq⟩
        · rcases append_until_limit_mem _ _ _ h with h | h
          · exact Or.inl h
          · exact Or.inr ⟨node, List.mem_cons_self _ _, hmem, h⟩
        · exact Or.inr ⟨n, List.mem_cons_of_mem _ hn, hnp, hq⟩

theorem fp_loop_count {f : Node → List PathT × List (Node × Node)} {path : List Node}
    {mp : Nat} {s t : Node}
    (Hf : ∀ n, (f n).1.length ≤ mp ∧ ((f n).2 ≠ [] → (f n).1.length = mp)) :
    ∀ (nbrs : List Node) (paths : List PathT) (ws : List (Node × Node)),
      paths.length < mp →
      (fp_loop f path mp s t nbrs paths ws).1.length ≤ mp ∧
      ((fp_loop f path mp s t nbrs paths ws).2 ≠ ws →
        (fp_loop f path mp s t nbrs paths ws).1.length = mp) := by
  intro nbrs
  induction nbrs with
  | nil =>
    intro paths ws hlt
    simp only [fp_loop]
    exact ⟨Nat.le_of_lt hlt, fun h => absurd rfl h⟩
  | cons node rest ih =>
    intro paths ws hlt
    simp only [fp_loop]
    by_cases hmem : node ∈ path
    · simp only [hmem, if_true]
      exact ih _ _ hlt
    · simp only [hmem, if_false]
      obtain ⟨hA1, hA2⟩ :=
        append_until_limit_spec (f node).1 paths (ws ++ (f node).2) hlt
      cases hstop : (append_until_limit mp s t (f node).1 paths (ws ++ (f node).2)).2.2
      · simp only [hstop, if_false, Bool.false_eq_true]
        obtain ⟨heq, hlen⟩ := hA2 hstop
        have hf2 : (f node).2 = [] := by
          by_contra hne
          have hmplen := (Hf node).2 hne
          have : (paths ++ (f node).1).length < mp := hlen
          simp only [List.length_append, hmplen] at this
          omega
        rw [heq]
        simp only [hf2, List.append_nil]
        exact ih (paths ++ (f node).1) ws hlen
      · simp only [hstop, if_true]
        have := hA1 hstop
        exact ⟨Nat.le_of_eq this, fun _ => this⟩

/-! ## Invariants of find_paths -/

theorem find_paths_fuel_mem {g : Graph} {finish : Node} {mpl mp : Nat} :
    ∀ (fuel : Nat) (start : Node) (path : List Node) {q : PathT},
      q ∈ (find_paths_fuel g finish mpl mp fuel start path).1 →
      path.length < mpl ∧
        ((q = path ++ [start] ∧ start = finish) ∨
         ∃ nbrs n, alist_get g start = some nbrs ∧ n ∈ nbrs ∧ n ∉ path ++ [start] ∧
           q ∈ (find_paths_fuel g finish mpl mp (fuel - 1) n (path ++ [start])).1) := by
  intro fuel
  cases fuel with
  | zero =>
    intro start path q h
    simp [find_paths_fuel] at h
  | succ fuel =>
    intro start path q h
    simp only [find_paths_fuel] at h
    by_cases hguard : mpl ≤ path.length
    · simp [hguard] at h
    · refine ⟨by omega, ?_⟩
      simp only [hguard, if_false] at h
      by_cases hfin : start = finish
      · simp only [hfin, if_true] at h
        simp only [List.mem_singleton] at h
        exact Or.inl ⟨by simp [h, hfin], hfin⟩
      · simp only [hfin, if_false] at h
        cases halist : alist_get g start with
        | none => simp [halist] at h
        | some nbrs =>
          simp only [halist] at h
          rcases fp_loop_mem _ _ _ h with h | ⟨n, hn, hnp, hq⟩
          · simp at h
          · exact Or.inr ⟨nbrs, n, rfl, hn, hnp, by simpa using hq⟩

theorem find_paths_fuel_nodup {g : Graph} {finish : Node} {mpl mp : Nat} :
    ∀ (fuel : Nat) (start : Node) (path : List Node),
      path.Nodup → start ∉ path →
      ∀ q ∈ (find_paths_fuel g finish mpl mp fuel start path).1, q.Nodup := by
  intro fuel
  induction fuel with
  | zero =>
    intro start path _ _ q hq
    simp [find_paths_fuel] at hq
  | succ fuel ih =>
    intro start path hnd hst q hq
    have hpath' : (path ++ [start]).Nodup := by
      simp [List.nodup_append, hnd, hst]
    rcases (find_paths_fuel_mem _ _ _ hq).2 with ⟨hq', _⟩ | ⟨nbrs, n, _, _, hnp, hq'⟩
    · rw [hq']; exact hpath'
    · exact ih n (path ++ [start]) hpath' hnp q (by simpa using hq')

theorem find_paths_fuel_len {g : Graph} {finish : Node} {mpl mp : Nat} :
    ∀ (fuel : Nat) (start : Node) (path : List Node),
      ∀ q ∈ (find_paths_fuel g finish mpl mp fuel start path).1, q.length ≤ mpl := by
  intro fuel
  induction fuel with
  | zero =>
    intro start path q hq
    simp [find_paths_fuel] at hq
  | succ fuel ih =>
    intro start path q hq
    obtain ⟨hlt, hcases⟩ := find_paths_fuel_mem _ _ _ hq
    rcases hcases with ⟨hq', _⟩ | ⟨nbrs, n, _, _, _, hq'⟩
    · rw [hq']; simp; omega
    · exact ih n (path ++ [start]) q (by simpa using hq')

theorem find_paths_fuel_shape {g : Graph} {finish : Node} {mpl mp : Nat} :
    ∀ (fuel : Nat) (start : Node) (path : List Node),
      ∀ q ∈ (find_paths_fuel g finish mpl mp fuel start path).1,
        (path ++ [start]) <+: q ∧ q.getLast? = some finish := by
  intro fuel
  induction fuel with
  | zero =>
    intro start path q hq
    simp [find_paths_fuel] at hq
  | succ fuel ih =>
    intro start path q hq
    obtain ⟨hlt, hcases⟩ := find_paths_fuel_mem _ _ _ hq
    rcases hcases with ⟨hq', hfin⟩ | ⟨nbrs, n, _, _, _, hq'⟩
    · subst hfin
      rw [hq']
      exact ⟨List.prefix_rfl, by simp [List.getLast?_concat]⟩
    · obtain ⟨hpre, hlast⟩ := ih n (path ++ [start]) q (by simpa using hq')
      exact ⟨(List.prefix_append _ _).trans hpre, hlast⟩

theorem find_paths_fuel_count {g : Graph} {finish : Node} {mpl mp : Nat}
    (hmp : 0 < mp) :
    ∀ (fuel : Nat) (start : Node) (path : List Node),
      (find_paths_fuel g finish mpl mp fuel start path).1.length ≤ mp ∧
      ((find_paths_fuel g finish mpl mp fuel start path).2 ≠ [] →
        (find_paths_fuel g finish mpl mp fuel start path).1.length = mp) := by
  intro fuel
  induction fuel with
  | zero =>
    intro start path
    simp [find_paths_fuel]
  | succ fuel ih =>
    intro start path
    simp only [find_paths_fuel]
    by_cases hguard : mpl ≤ path.length
    · simp [hguard]
    · simp only [hguard, if_false]
      by_cases hfin : start = finish
      · simp [hfin]; omega
      · simp only [hfin, if_false]
        cases halist : alist_get g start with
        | none => simp
        | some nbrs =>
          simp only []
          exact fp_loop_count (fun n => ih n (path ++ [start])) nbrs [] []
            (by simpa using hmp)

/-- Both stopping conditions of the Python recursion return no paths: with the
current path at or over `max_path_length` (or the fuel spent, which the
wrapper only allows at even longer paths) the branch is abandoned. -/
theorem find_paths_fuel_guard {g : Graph} {finish : Node} {mpl mp : Nat}
    (fuel : Nat) (start : Node) (path : List Node) (h : mpl ≤ path.length) :
    find_paths_fuel g finish mpl mp fuel start path = ([], []) := by
  cases fuel with
  | zero => simp [find_paths_fuel]
  | succ fuel => simp [find_paths_fuel, h]

/-! ## Claims about the path enumerator -/

/-- C1 (amended): for positive `max_paths`, `find_paths` returns at most
`max_paths` paths, and the "limit reached" diagnostic is only ever raised
when the returned path count is exactly `max_paths` — hence no diagnostic is
emitted when the count is strictly below the limit.  (The diagnostic does
not certify that a real path was omitted; see the counterexample.) -/
theorem C1_find_paths_limit_behavior (g : Graph) (s e : Node) (mpl mp : Nat)
    (hmp : 0 < mp) :
    (find_paths g s e [] mpl mp).1.length ≤ mp ∧
    ((find_paths g s e [] mpl mp).2 ≠ [] →
      (find_paths g s e [] mpl mp).1.length = mp) :=
  find_paths_fuel_count hmp (mpl + 1 - ([] : List Node).length) s []

theorem C1_find_paths_limit_behavior_witness :
    0 < 1 ∧
    ((find_paths [("1", ["2"]), ("2", [])] "1" "2" [] 15 1).1.length ≤ 1 ∧
     ((find_paths [("1", ["2"]), ("2", [])] "1" "2" [] 15 1).2 ≠ [] →
       (find_paths [("1", ["2"]), ("2", [])] "1" "2" [] 15 1).1.length = 1)) :=
  ⟨by decide, C1_find_paths_limit_behavior [("1", ["2"]), ("2", [])] "1" "2" 15 1 (by decide)⟩

/-- C1 counterexample: on the two-node graph 1→2 with `max_paths = 1`, the
limit diagnostic for the pair (1, 2) is raised although nothing was
truncated: the single returned path is the only bounded simple path from 1
to 2 (and raising the limit to 1000 finds nothing more). -/
theorem C1_diagnostic_without_omission :
    (find_paths [("1", ["2"]), ("2", [])] "1" "2" [] 15 1).2 = [("1", "2")] ∧
    (find_paths [("1", ["2"]), ("2", [])] "1" "2" [] 15 1).1 = [["1", "2"]] ∧
    (¬ ∃ p, specSimplePath [("1", ["2"]), ("2", [])] "1" "2" 15 p ∧
        p ∉ (find_paths [("1", ["2"]), ("2", [])] "1" "2" [] 15 1).1) ∧
    (find_paths [("1", ["2"]), ("2", [])] "1" "2" [] 15 1000).1
      = (find_paths [("1", ["2"]), ("2", [])] "1" "2" [] 15 1).1 := by
  have hres : (find_paths [("1", ["2"]), ("2", [])] "1" "2" [] 15 1).1 = [["1", "2"]] := by
    decide
  refine ⟨by decide, hres, ?_, by decide⟩
  rintro ⟨p, ⟨hhead, hlast, hnd, hlen, hchain, hone⟩, hnot⟩
  cases p with
  | nil => simp at hhead
  | cons a tail =>
    simp only [List.head?_cons, Option.some.injEq] at hhead
    subst hhead
    cases tail with
    | nil =>
      simp only [List.getLast?_singleton, Option.some.injEq] at hlast
      exact absurd hlast (by decide)
    | cons b tail2 =>
      rw [List.chain'_cons] at hchain
      obtain ⟨hab, hchain2⟩ := hchain
      have hg1 : (alist_get ([("1", ["2"]), ("2", [])] : Graph) "1").getD [] = ["2"] := by
        decide
      rw [hg1] at hab
      simp only [List.mem_singleton] at hab
      subst hab
      cases tail2 with
      | nil => exact hnot (by rw [hres]; simp)
      | cons c tail3 =>
        rw [List.chain'_cons] at hchain2
        obtain ⟨hbc, _⟩ := hchain2
        have hg2 : (alist_get ([("1", ["2"]), ("2", [])] : Graph) "2").getD [] = [] := by
          decide
        rw [hg2] at hbc
        simp at hbc

/-- C2 (amended): a `start` with no entry in the graph yields the empty
result — provided `end` differs from `start`; the lookup happens only after
the `start == end` short-circuit, so a missing start equal to the end still
produces the degenerate path (see the counterexample). -/
theorem C2_missing_start_empty (g : Graph) (s e : Node) (mpl mp : Nat)
    (hs : alist_get g s = none) (hne : s ≠ e) :
    find_paths g s e [] mpl mp = ([], []) := by
  simp only [find_paths, List.length_nil, Nat.sub_zero]
  by_cases h0 : mpl ≤ ([] : List Node).length
  · exact find_paths_fuel_guard _ s [] h0
  · simp [find_paths_fuel, h0, hne, hs]

theorem C2_missing_start_empty_witness :
    alist_get ([("1", [])] : Graph) "2" = none ∧ ("2" : Node) ≠ "3" ∧
    find_paths [("1", [])] "2" "3" [] 15 1000 = ([], []) :=
  ⟨by decide, by decide, C2_missing_start_empty [("1", [])] "2" "3" 15 1000 (by decide) (by decide)⟩

/-- C2 counterexample: node "2" has no entry in the graph, yet
`find_paths(g, "2", "2", ...)` returns the non-empty result `[["2"]]`
because the `start == end` test precedes the membership test. -/
theorem C2_missing_start_self_pair :
    alist_get ([("1", [])] : Graph) "2" = none ∧
    (find_paths [("1", [])] "2" "2" [] 15 1000).1 ≠ [] ∧
    find_paths [("1", [])] "2" "2" [] 15 1000 = ([["2"]], []) := by decide

/-- C3 (amended): for any graph and any `max_path_length ≥ 1`,
`find_paths(g, s, s, ...)` returns exactly the degenerate single-node path
`[[s]]` — whether or not a self-loop edge `s → s` exists, since the
`start == end` test fires before any neighbour list is consulted. -/
theorem C3_self_od_unconditional (g : Graph) (s : Node) (mpl mp : Nat)
    (hmpl : 1 ≤ mpl) :
    find_paths g s s [] mpl mp = ([[s]], []) := by
  obtain ⟨k, rfl⟩ : ∃ k, mpl = k + 1 := ⟨mpl - 1, by omega⟩
  simp [find_paths, find_paths_fuel]

theorem C3_self_od_unconditional_witness :
    1 ≤ 15 ∧ find_paths [("1", ["2"]), ("2", [])] "1" "1" [] 15 1000 = ([["1"]], []) :=
  ⟨by decide, C3_self_od_unconditional [("1", ["2"]), ("2", [])] "1" 15 1000 (by decide)⟩

/-- C3 counterexample: node "1" has no self-loop edge, yet the single-node
path `["1"]` is returned for the OD pair ("1", "1"). -/
theorem C3_single_node_without_loop :
    ("1" : Node) ∉ (alist_get ([("1", ["2"]), ("2", [])] : Graph) "1").getD [] ∧
    find_paths [("1", ["2"]), ("2", [])] "1" "1" [] 15 1000 = ([["1"]], []) := by decide

/-- C5: every path returned by `find_paths` with at least two nodes has
pairwise distinct nodes (in fact every returned path does; the DFS only ever
recurses into nodes absent from the current path). -/
theorem C5_paths_nodup (g : Graph) (s e : Node) (mpl mp : Nat) (p : PathT)
    (hp : p ∈ (find_paths g s e [] mpl mp).1) (_hlen : 2 ≤ p.length) : p.Nodup :=
  find_paths_fuel_nodup (mpl + 1 - ([] : List Node).length) s []
    List.nodup_nil (List.not_mem_nil s) p hp

theorem C5_paths_nodup_witness :
    ["1", "2", "3"] ∈ (find_paths [("1", ["2"]), ("2", ["3"]), ("3", [])] "1" "3" [] 15 1000).1 ∧
    2 ≤ (["1", "2", "3"] : PathT).length ∧ (["1", "2", "3"] : PathT).Nodup :=
  ⟨by decide, by decide,
    C5_paths_nodup [("1", ["2"]), ("2", ["3"]), ("3", [])] "1" "3" 15 1000
      ["1", "2", "3"] (by decide) (by decide)⟩

/-- C6: every returned path has at most `max_path_length` nodes; a branch
whose current path has reached `max_path_length` contributes no paths; and
on the 5-chain with `max_path_length = 3` the full-length query is empty. -/
theorem C6_max_path_length_bound (g : Graph) (s e : Node) (mpl mp : Nat) :
    (∀ p ∈ (find_paths g s e [] mpl mp).1, p.length ≤ mpl) ∧
    (∀ path : List Node, mpl ≤ path.length →
      find_paths g s e path mpl mp = ([], [])) ∧
    find_paths [("1", ["2"]), ("2", ["3"]), ("3", ["4"]), ("4", ["5"]), ("5", [])]
      "1" "5" [] 3 1000 = ([], []) := by
  refine ⟨?_, ?_, by decide⟩
  · intro p hp
    exact find_paths_fuel_len (mpl + 1 - ([] : List Node).length) s [] p hp
  · intro path hlen
    simp only [find_paths]
    exact find_paths_fuel_guard _ s path hlen

theorem C6_max_path_length_bound_witness :
    ["1", "2", "3"] ∈ (find_paths [("1", ["2"]), ("2", ["3"]), ("3", [])] "1" "3" [] 15 1000).1 ∧
    (["1", "2", "3"] : PathT).length ≤ 15 :=
  ⟨by decide,
    (C6_max_path_length_bound [("1", ["2"]), ("2", ["3"]), ("3", [])] "1" "3" 15 1000).1
      ["1", "2", "3"] (by decide)⟩

/-- C10: every path produced by the all-pairs orchestrator has at least two
nodes and distinct first and last nodes, because equal ordered pairs are
skipped and every per-pair result starts at `start` and ends at `end`. -/
theorem C10_all_pairs_paths (g : Graph) (mpl mp : Nat) (p : PathT)
    (hp : p ∈ (find_all_paths_between_all_pairs g mpl mp).1) :
    2 ≤ p.length ∧ p.head? ≠ p.getLast? := by
  simp only [find_all_paths_between_all_pairs] at hp
  rw [List.mem_flatMap] at hp
  obtain ⟨r, hr, hpr⟩ := hp
  rw [List.mem_flatMap] at hr
  obtain ⟨s, hs, hr⟩ := hr
  rw [List.mem_flatMap] at hr
  obtain ⟨e, he, hr⟩ := hr
  by_cases hse : s = e
  · simp [hse] at hr
  · simp only [hse, if_false, List.mem_singleton] at hr
    subst hr
    obtain ⟨hpre, hlast⟩ := find_paths_fuel_shape (mpl + 1 - ([] : List Node).length) s [] p hpr
    obtain ⟨tail, htail⟩ := hpre
    have hps : p = s :: tail := by simpa using htail.symm
    subst hps
    constructor
    · cases tail with
      | nil =>
        simp only [List.getLast?_singleton, Option.some.injEq] at hlast
        exact absurd hlast hse
      | cons b tail2 => simp
    · intro hcontra
      rw [List.head?_cons, hlast] at hcontra
      exact hse (Option.some.inj hcontra)

theorem C10_all_pairs_paths_witness :
    ["1", "2"] ∈ (find_all_paths_between_all_pairs
      [("1", ["2"]), ("2", ["3"]), ("3", [])] 15 1000).1 ∧
    (2 ≤ (["1", "2"] : PathT).length ∧
      (["1", "2"] : PathT).head? ≠ (["1", "2"] : PathT).getLast?) :=
  ⟨by decide,
    C10_all_pairs_paths [("1", ["2"]), ("2", ["3"]), ("3", [])] 15 1000
      ["1", "2"] (by decide)⟩

/-! ## Claims about the aggregator -/

/-- The number of occurrences of `e` among the consecutive pairs of `p` (the
claim-side reading of "edge usage" of one path occurrence). -/
def consecCount (p : PathT) (e : Edge) : Nat :=
  (p.zip p.tail).countP fun x => decide (x = e)

/-- The consecutive-pair count of the node sequence recovered from a
canonical path string. -/
def consecCountKey (k : String) (e : Edge) : Nat :=
  consecCount (pySplit " -> " k) e

theorem getCount_dict_incr {κ : Type} [DecidableEq κ] :
    ∀ (d : List (κ × Nat)) (k k' : κ) (n : Nat),
      getCount (dict_incr d k n) k' = getCount d k' + if k' = k then n else 0 := by
  intro d
  induction d with
  | nil =>
    intro k k' n
    by_cases h : k' = k <;> simp [dict_incr, getCount, alist_get, h]
  | cons kv rest ih =>
    intro k k' n
    obtain ⟨a, b⟩ := kv
    simp only [dict_incr]
    by_cases hka : k = a
    · subst hka
      by_cases hk' : k' = k <;> simp [getCount, alist_get, hk']
    · simp only [if_neg hka]
      by_cases hk'a : k' = a
      · have hne : ¬ a = k := fun h => hka h.symm
        simp [getCount, alist_get, hk'a, hne]
      · simp only [getCount, alist_get, if_neg hk'a]
        exact ih k k' n

theorem sum_dict_incr {κ : Type} [DecidableEq κ] (gfun : κ → Nat) :
    ∀ (d : List (κ × Nat)) (k : κ) (n : Nat),
      ((dict_incr d k n).map fun kv => kv.2 * gfun kv.1).sum
        = ((d.map fun kv => kv.2 * gfun kv.1).sum) + n * gfun k := by
  intro d
  induction d with
  | nil => intro k n; simp [dict_incr]
  | cons kv rest ih =>
    intro k n
    obtain ⟨a, b⟩ := kv
    simp only [dict_incr]
    by_cases h : k = a
    · subst h
      simp only [if_pos, List.map_cons, List.sum_cons]
      ring
    · simp only [if_neg h, List.map_cons, List.sum_cons, ih]
      ring

theorem count_path_repetitions_sum (gfun : String → Nat) :
    ∀ (l : List PathT) (d : List (String × Nat)),
      ((l.foldl (fun d path => dict_incr d (pyJoin " -> " path) 1) d).map
          fun kv => kv.2 * gfun kv.1).sum
        = ((d.map fun kv => kv.2 * gfun kv.1).sum)
            + (l.map fun p => gfun (pyJoin " -> " p)).sum := by
  intro l
  induction l with
  | nil => intro d; simp
  | cons p rest ih =>
    intro d
    simp only [List.foldl_cons, List.map_cons, List.sum_cons]
    rw [ih, sum_dict_incr]
    ring

theorem cer_inner_get (e : Edge) (n : Nat) :
    ∀ (edges : List Edge) (d : List (Edge × Nat)),
      getCount (edges.foldl (fun d x => dict_incr d x n) d) e
        = getCount d e + n * (edges.countP fun x => decide (x = e)) := by
  intro edges
  induction edges with
  | nil => intro d; simp
  | cons x rest ih =>
    intro x_d
    simp only [List.foldl_cons]
    rw [ih, getCount_dict_incr, List.countP_cons]
    by_cases h : x = e
    · simp [h]
      ring
    · have h' : ¬ (e = x) := fun hh => h hh.symm
      simp [h, h']

theorem cer_get (e : Edge) :
    ∀ (entries : List (String × Nat)) (d : List (Edge × Nat)),
      getCount (entries.foldl
          (fun d entry =>
            let nodes := pySplit " -> " entry.1
            let edges := nodes.zip nodes.tail
            edges.foldl (fun d e => dict_incr d e entry.2) d)
          d) e
        = getCount d e + (entries.map fun kv => kv.2 * consecCountKey kv.1 e).sum := by
  intro entries
  induction entries with
  | nil => intro d; simp
  | cons kv rest ih =>
    intro d
    simp only [List.foldl_cons, List.map_cons, List.sum_cons]
    rw [ih, cer_inner_get]
    simp only [consecCountKey, consecCount]
    ring

/-- C4 (amended): provided the `" -> "` canonicalization round-trips on every
path in the list (splitting the joined string recovers the original node
sequence — true whenever no node name interferes with the delimiter), the
composition `count_edge_repetitions ∘ count_path_repetitions` assigns every
directed edge exactly the total number of its consecutive-pair occurrences
over all path occurrences in the list. -/
theorem C4_edge_counts_roundtrip (paths : List PathT)
    (H : ∀ p ∈ paths, pySplit " -> " (pyJoin " -> " p) = p) (u v : Node) :
    getCount (count_edge_repetitions (count_path_repetitions paths)) (u, v)
      = (paths.map fun p => consecCount p (u, v)).sum := by
  have h1 := cer_get (u, v) (count_path_repetitions paths) []
  have h2 := count_path_repetitions_sum (fun k => consecCountKey k (u, v)) paths []
  simp only [count_edge_repetitions, count_path_repetitions] at *
  rw [h1]
  simp only [getCount, alist_get, Option.getD, Nat.zero_add]
  rw [h2]
  simp only [List.map_nil, List.sum_nil, Nat.zero_add]
  refine congrArg List.sum (List.map_congr_left ?_)
  intro p hp
  simp [consecCountKey, H p hp]

theorem C4_edge_counts_roundtrip_witness :
    (∀ p ∈ ([["1", "2", "3"], ["1", "2", "3"], ["2", "3"]] : List PathT),
      pySplit " -> " (pyJoin " -> " p) = p) ∧
    getCount (count_edge_repetitions (count_path_repetitions
        [["1", "2", "3"], ["1", "2", "3"], ["2", "3"]])) ("1", "2")
      = ((([["1", "2", "3"], ["1", "2", "3"], ["2", "3"]] : List PathT).map
          fun p => consecCount p ("1", "2")).sum) :=
  ⟨by decide, C4_edge_counts_roundtrip _ (by decide) "1" "2"⟩

/-- C4 counterexample: for the single path whose only node is the string
"a -> b" there is no consecutive pair at all, yet the composed counters
assign 1 to the edge ("a", "b"): the split does not invert the join on such
node names. -/
theorem C4_delimiter_collision :
    getCount (count_edge_repetitions (count_path_repetitions [["a -> b"]])) ("a", "b") = 1 ∧
    ((([["a -> b"]] : List PathT).map fun p => consecCount p ("a", "b")).sum) = 0 := by
  decide

/-! ## Claims about the incidence builder -/

theorem mem_set_insert {α : Type} [DecidableEq α] (s : List α) (x y : α) :
    y ∈ set_insert s x ↔ y ∈ s ∨ y = x := by
  unfold set_insert
  by_cases h : x ∈ s
  · simp only [if_pos h]
    constructor
    · exact Or.inl
    · rintro (hy | rfl)
      · exact hy
      · exact h
  · simp [if_neg h]

theorem mem_set_union {α : Type} [DecidableEq α] :
    ∀ (xs s : List α) (y : α), y ∈ set_union s xs ↔ y ∈ s ∨ y ∈ xs := by
  intro xs
  induction xs with
  | nil => intro s y; simp [set_union]
  | cons x rest ih =>
    intro s y
    have : set_union s (x :: rest) = set_union (set_insert s x) rest := rfl
    rw [this, ih, mem_set_insert, List.mem_cons]
    tauto

theorem nodup_set_insert {α : Type} [DecidableEq α] (s : List α) (x : α)
    (h : s.Nodup) : (set_insert s x).Nodup := by
  unfold set_insert
  by_cases hx : x ∈ s
  · simp [hx, h]
  · simp [hx, List.nodup_append, h, List.disjoint_singleton]

theorem nodup_set_union {α : Type} [DecidableEq α] :
    ∀ (xs s : List α), s.Nodup → (set_union s xs).Nodup := by
  intro xs
  induction xs with
  | nil => intro s h; simpa [set_union] using h
  | cons x rest ih => intro s h; exact ih (set_insert s x) (nodup_set_insert s x h)

theorem lights_dict_update_set (ek ok : String) :
    ∀ (d : List ((Node × Node) × List Edge)) (od : Node × Node) (es : List Edge),
      (∃ kv ∈ dict_update_set d od es, pairKey kv.1 = ok ∧ ∃ e ∈ kv.2, pairKey e = ek)
        ↔ (∃ kv ∈ d, pairKey kv.1 = ok ∧ ∃ e ∈ kv.2, pairKey e = ek)
          ∨ (pairKey od = ok ∧ ∃ e ∈ es, pairKey e = ek) := by
  intro d
  induction d with
  | nil =>
    intro od es
    simp [dict_update_set, mem_set_union]
  | cons kv0 rest ih =>
    intro od es
    obtain ⟨k, v⟩ := kv0
    by_cases h : od = k
    · subst h
      have hstep : dict_update_set ((od, v) :: rest) od es
          = (od, set_union v es) :: rest := by
        simp [dict_update_set]
      rw [hstep]
      constructor
      · rintro ⟨kv, hkv, hok, e, he, hek⟩
        rcases List.mem_cons.1 hkv with rfl | hkv'
        · rcases (mem_set_union es v e).1 he with hev | hee
          · exact Or.inl ⟨(od, v), List.mem_cons_self _ _, hok, e, hev, hek⟩
          · exact Or.inr ⟨hok, e, hee, hek⟩
        · exact Or.inl ⟨kv, List.mem_cons_of_mem _ hkv', hok, e, he, hek⟩
      · rintro (⟨kv, hkv, hok, e, he, hek⟩ | ⟨hok, e, he, hek⟩)
        · rcases List.mem_cons.1 hkv with rfl | hkv'
          · exact ⟨(od, set_union v es), List.mem_cons_self _ _, hok, e,
              (mem_set_union es v e).2 (Or.inl he), hek⟩
          · exact ⟨kv, List.mem_cons_of_mem _ hkv', hok, e, he, hek⟩
        · exact ⟨(od, set_union v es), List.mem_cons_self _ _, hok, e,
            (mem_set_union es v e).2 (Or.inr he), hek⟩
    · have hstep : dict_update_set ((k, v) :: rest) od es
          = (k, v) :: dict_update_set rest od es := by
        simp [dict_update_set, h]
      rw [hstep]
      constructor
      · rintro ⟨kv, hkv, hok, e, he, hek⟩
        rcases List.mem_cons.1 hkv with rfl | hkv'
        · exact Or.inl ⟨(k, v), List.mem_cons_self _ _, hok, e, he, hek⟩
        · rcases (ih od es).1 ⟨kv, hkv', hok, e, he, hek⟩ with hrest | hnew
          · obtain ⟨kv2, hkv2, h2⟩ := hrest
            exact Or.inl ⟨kv2, List.mem_cons_of_mem _ hkv2, h2⟩
          · exact Or.inr hnew
      · rintro (⟨kv, hkv, hok, e, he, hek⟩ | hnew)
        · rcases List.mem_cons.1 hkv with rfl | hkv'
          · exact ⟨(k, v), List.mem_cons_self _ _, hok, e, he, hek⟩
          · obtain ⟨kv2, hkv2, h2⟩ := (ih od es).2 (Or.inl ⟨kv, hkv', hok, e, he, hek⟩)
            exact ⟨kv2, List.mem_cons_of_mem _ hkv2, h2⟩
        · obtain ⟨kv2, hkv2, h2⟩ := (ih od es).2 (Or.inr hnew)
          exact ⟨kv2, List.mem_cons_of_mem _ hkv2, h2⟩

theorem lights_od_to_edges (ek ok : String) :
    ∀ (l : List PathT) (d : List ((Node × Node) × List Edge)),
      (∃ kv ∈ l.foldl
          (fun d path =>
            if path.length < 2 then d
            else dict_update_set d (path.headD "", path.getLastD "") (path.zip path.tail))
          d,
        pairKey kv.1 = ok ∧ ∃ e ∈ kv.2, pairKey e = ek)
        ↔ (∃ kv ∈ d, pairKey kv.1 = ok ∧ ∃ e ∈ kv.2, pairKey e = ek)
          ∨ ∃ p ∈ l, 2 ≤ p.length ∧ pairKey (p.headD "", p.getLastD "") = ok ∧
              ∃ e ∈ p.zip p.tail, pairKey e = ek := by
  intro l
  induction l with
  | nil => intro d; simp
  | cons p rest ih =>
    intro d
    simp only [List.foldl_cons]
    by_cases h : p.length < 2
    · rw [if_pos h, ih]
      have h2 : ¬ 2 ≤ p.length := by omega
      simp [List.exists_mem_cons_iff, h2]
    · rw [if_neg h, ih, lights_dict_update_set]
      have h2 : 2 ≤ p.length := by omega
      simp only [List.exists_mem_cons_iff, h2, true_and]
      exact or_assoc

theorem incidence_cell_eq_one (ote : List ((Node × Node) × List Edge))
    (ek ok : String) :
    incidence_cell ote ek ok = 1 ↔
      ∃ kv ∈ ote, pairKey kv.1 = ok ∧ ∃ e ∈ kv.2, pairKey e = ek := by
  unfold incidence_cell
  split
  · rename_i hcond
    exact iff_of_true rfl hcond
  · rename_i hcond
    exact iff_of_false (by omega) hcond

theorem incidence_cell_zero_or_one (ote : List ((Node × Node) × List Edge))
    (ek ok : String) : incidence_cell ote ek ok = 0 ∨ incidence_cell ote ek ok = 1 := by
  unfold incidence_cell
  split
  · right; rfl
  · left; rfl

theorem sorted_mergeSort_le (l : List String) :
    List.Sorted (· ≤ ·) (l.mergeSort fun a b => decide (a ≤ b)) := by
  have htrans : ∀ a b c : String,
      decide (a ≤ b) = true → decide (b ≤ c) = true → decide (a ≤ c) = true := by
    intro a b c hab hbc
    simp only [decide_eq_true_eq] at *
    exact le_trans hab hbc
  have htotal : ∀ a b : String, (decide (a ≤ b) || decide (b ≤ a)) = true := by
    intro a b
    rcases le_total a b with h | h <;> simp [h]
  have h := @List.sorted_mergeSort String (fun a b => decide (a ≤ b)) htrans htotal l
  exact List.Pairwise.imp (fun h => by simpa using h) h

theorem nodup_fold_set_union {β : Type} (f : β → List String) :
    ∀ (l : List β) (s : List String), s.Nodup →
      (l.foldl (fun s kv => set_union s (f kv)) s).Nodup := by
  intro l
  induction l with
  | nil => intro s h; simpa using h
  | cons x rest ih => intro s h; exact ih _ (nodup_set_union _ _ h)

theorem nodup_fold_set_insert {β : Type} (f : β → String) :
    ∀ (l : List β) (s : List String), s.Nodup →
      (l.foldl (fun s kv => set_insert s (f kv)) s).Nodup := by
  intro l
  induction l with
  | nil => intro s h; simpa using h
  | cons x rest ih => intro s h; exact ih _ (nodup_set_insert _ _ h)

theorem sum_map_indicator {α : Type} (f : α → Nat) (hf : ∀ x, f x = 0 ∨ f x = 1) :
    ∀ l : List α, (l.map f).sum = l.countP fun x => decide (f x = 1) := by
  intro l
  induction l with
  | nil => simp
  | cons x rest ih =>
    simp only [List.map_cons, List.sum_cons, List.countP_cons, ih]
    rcases hf x with h | h
    · simp [h]
    · simp [h]
      omega

/-- C7 (amended): `build_od_incidence_matrix` considers only the supplied
paths of at least two nodes; a cell is 1 exactly when some such path whose
OD string key equals the column key contains a consecutive pair whose edge
string key equals the row key (distinct edges or OD pairs whose `u->v`
string keys collide necessarily share the cell, see the counterexample);
row and column labels are lexicographically sorted and duplicate-free; and
each edge's SUM value equals the number of distinct OD columns holding a 1
in that row. -/
theorem C7_incidence_matrix (g : Graph) (paths : List PathT) (ek ok : String) :
    ((build_od_incidence_matrix g (some paths)).cell ek ok = 1 ↔
      ∃ p ∈ paths, 2 ≤ p.length ∧ pairKey (p.headD "", p.getLastD "") = ok ∧
        ∃ e ∈ p.zip p.tail, pairKey e = ek) ∧
    List.Sorted (· ≤ ·) (build_od_incidence_matrix g (some paths)).edge_index ∧
    List.Sorted (· ≤ ·) (build_od_incidence_matrix g (some paths)).od_columns ∧
    (build_od_incidence_matrix g (some paths)).edge_index.Nodup ∧
    (build_od_incidence_matrix g (some paths)).od_columns.Nodup ∧
    (build_od_incidence_matrix g (some paths)).row_sum ek
      = (build_od_incidence_matrix g (some paths)).od_columns.countP
          fun ok' => decide ((build_od_incidence_matrix g (some paths)).cell ek ok' = 1) := by
  refine ⟨?_, ?_, ?_, ?_, ?_, ?_⟩
  · show incidence_cell (od_to_edges paths) ek ok = 1 ↔ _
    rw [incidence_cell_eq_one]
    have h := lights_od_to_edges ek ok paths []
    unfold od_to_edges
    rw [h]
    simp
  · exact sorted_mergeSort_le _
  · exact sorted_mergeSort_le _
  · exact (List.mergeSort_perm _ _).symm.nodup
      (nodup_fold_set_union (fun kv : (Node × Node) × List Edge => kv.2.map pairKey) _ [] List.nodup_nil)
  · exact (List.mergeSort_perm _ _).symm.nodup
      (nodup_fold_set_insert (fun kv : (Node × Node) × List Edge => pairKey kv.1) _ [] List.nodup_nil)
  · exact sum_map_indicator _ (incidence_cell_zero_or_one _ ek) _

theorem C7_incidence_matrix_witness :
    ((build_od_incidence_matrix []
        (some [["1", "2"], ["1", "2", "3"], ["2", "3"]])).cell "1->2" "1->3" = 1 ↔
      ∃ p ∈ ([["1", "2"], ["1", "2", "3"], ["2", "3"]] : List PathT),
        2 ≤ p.length ∧ pairKey (p.headD "", p.getLastD "") = "1->3" ∧
        ∃ e ∈ p.zip p.tail, pairKey e = "1->2") ∧
    List.Sorted (· ≤ ·) (build_od_incidence_matrix []
      (some [["1", "2"], ["1", "2", "3"], ["2", "3"]])).edge_index ∧
    List.Sorted (· ≤ ·) (build_od_incidence_matrix []
      (some [["1", "2"], ["1", "2", "3"], ["2", "3"]])).od_columns ∧
    (build_od_incidence_matrix []
      (some [["1", "2"], ["1", "2", "3"], ["2", "3"]])).edge_index.Nodup ∧
    (build_od_incidence_matrix []
      (some [["1", "2"], ["1", "2", "3"], ["2", "3"]])).od_columns.Nodup ∧
    (build_od_incidence_matrix []
      (some [["1", "2"], ["1", "2", "3"], ["2", "3"]])).row_sum "1->2"
      = (build_od_incidence_matrix []
          (some [["1", "2"], ["1", "2", "3"], ["2", "3"]])).od_columns.countP
          fun ok' => decide ((build_od_incidence_matrix []
            (some [["1", "2"], ["1", "2", "3"], ["2", "3"]])).cell "1->2" ok' = 1) :=
  C7_incidence_matrix [] [["1", "2"], ["1", "2", "3"], ["2", "3"]] "1->2" "1->3"

/-- C7 counterexample: the cell keyed by edge string "a->b->c" and OD string
"x->c" holds 1, yet the edge ("a", "b->c") — one reading of that row key —
occurs in no path with OD ("x", "c"): the 1 comes from the colliding edge
("a->b", "c") of the path ["x", "a->b", "c"].  The pair-level reading of the
claim is therefore false; only the key-level amended reading holds. -/
theorem C7_key_collision :
    (build_od_incidence_matrix []
      (some [["a", "b->c", "z"], ["x", "a->b", "c"]])).cell "a->b->c" "x->c" = 1 ∧
    ¬ ∃ p ∈ ([["a", "b->c", "z"], ["x", "a->b", "c"]] : List PathT),
        2 ≤ p.length ∧ (p.headD "", p.getLastD "") = (("x" : Node), ("c" : Node)) ∧
        ∃ e ∈ p.zip p.tail, e = (("a" : Node), ("b->c" : Node)) := by
  decide

/-! ## Claims about the facade and the graph model -/

/-- C8: `analyze_network` fails with the input-validity `ValueError` exactly
when the argument is empty or not a dict; on every non-empty dict it
succeeds and returns the bundle of the pipeline's outputs. -/
theorem C8_analyze_validation (arg : PyGraphArg) (mpl mp : Nat) :
    ((analyze_network arg mpl mp).isOk = false ↔
      (py_falsy arg = true ∨ is_dict arg = false)) ∧
    (∀ g, arg = .dict g → py_falsy arg = false →
      analyze_network arg mpl mp = .ok
        ⟨build_digraph g,
         (find_all_paths_between_all_pairs g mpl mp).1,
         count_path_repetitions (find_all_paths_between_all_pairs g mpl mp).1,
         count_edge_repetitions
           (count_path_repetitions (find_all_paths_between_all_pairs g mpl mp).1),
         build_od_incidence_matrix g
           (some (find_all_paths_between_all_pairs g mpl mp).1)⟩) := by
  constructor
  · cases arg with
    | dict g =>
      by_cases hemp : g.isEmpty
      · simp [analyze_network, py_falsy, is_dict, hemp, Except.isOk, Except.toBool]
      · simp [analyze_network, py_falsy, is_dict, hemp, Except.isOk, Except.toBool]
    | other b =>
      cases b
      · simp [analyze_network, py_falsy, is_dict, Except.isOk, Except.toBool]
      · simp [analyze_network, py_falsy, is_dict, Except.isOk, Except.toBool]
  · rintro g rfl hfal
    simp only [py_falsy] at hfal
    simp [analyze_network, py_falsy, hfal]

theorem C8_analyze_validation_witness :
    analyze_network (.dict [("1", ["2"]), ("2", [])]) 15 1000 = .ok
      ⟨build_digraph [("1", ["2"]), ("2", [])],
       (find_all_paths_between_all_pairs [("1", ["2"]), ("2", [])] 15 1000).1,
       count_path_repetitions
         (find_all_paths_between_all_pairs [("1", ["2"]), ("2", [])] 15 1000).1,
       count_edge_repetitions (count_path_repetitions
         (find_all_paths_between_all_pairs [("1", ["2"]), ("2", [])] 15 1000).1),
       build_od_incidence_matrix [("1", ["2"]), ("2", [])]
         (some (find_all_paths_between_all_pairs [("1", ["2"]), ("2", [])] 15 1000).1)⟩ :=
  (C8_analyze_validation (.dict [("1", ["2"]), ("2", [])]) 15 1000).2 _ rfl rfl

theorem keys_setdefault_append_mono : ∀ (g : Graph) (k v k' : Node),
    k' ∈ g.map Prod.fst → k' ∈ (setdefault_append g k v).map Prod.fst := by
  intro g
  induction g with
  | nil => intro k v k' h; simp at h
  | cons kv rest ih =>
    intro k v k' h
    obtain ⟨a, vs⟩ := kv
    simp only [setdefault_append]
    by_cases hk : k = a
    · simp only [if_pos hk, List.map_cons]
      simpa using h
    · simp only [if_neg hk, List.map_cons]
      simp only [List.map_cons] at h
      rcases List.mem_cons.1 h with rfl | h'
      · exact List.mem_cons_self _ _
      · exact List.mem_cons_of_mem _ (ih k v k' h')

theorem keys_setdefault_append_self : ∀ (g : Graph) (k v : Node),
    k ∈ (setdefault_append g k v).map Prod.fst := by
  intro g
  induction g with
  | nil => intro k v; simp [setdefault_append]
  | cons kv rest ih =>
    intro k v
    obtain ⟨a, vs⟩ := kv
    simp only [setdefault_append]
    by_cases hk : k = a
    · simp [if_pos hk, hk]
    · simp only [if_neg hk, List.map_cons]
      exact List.mem_cons_of_mem _ (ih k v)

theorem keys_ensure_key_mono : ∀ (g : Graph) (k k' : Node),
    k' ∈ g.map Prod.fst → k' ∈ (ensure_key g k).map Prod.fst := by
  intro g
  induction g with
  | nil => intro k k' h; simp at h
  | cons kv rest ih =>
    intro k k' h
    obtain ⟨a, vs⟩ := kv
    simp only [ensure_key]
    by_cases hk : k = a
    · simp only [if_pos hk, List.map_cons]
      simpa using h
    · simp only [if_neg hk, List.map_cons]
      simp only [List.map_cons] at h
      rcases List.mem_cons.1 h with rfl | h'
      · exact List.mem_cons_self _ _
      · exact List.mem_cons_of_mem _ (ih k k' h')

theorem keys_ensure_key_self : ∀ (g : Graph) (k : Node),
    k ∈ (ensure_key g k).map Prod.fst := by
  intro g
  induction g with
  | nil => intro k; simp [ensure_key]
  | cons kv rest ih =>
    intro k
    obtain ⟨a, vs⟩ := kv
    simp only [ensure_key]
    by_cases hk : k = a
    · simp [if_pos hk, hk]
    · simp only [if_neg hk, List.map_cons]
      exact List.mem_cons_of_mem _ (ih k)

theorem load_fold_keys_mono (sc tc : String) :
    ∀ (rows : List (String → String)) (g : Graph) (k : Node),
      k ∈ g.map Prod.fst →
      k ∈ ((rows.foldl
          (fun g row =>
            ensure_key (setdefault_append g (row sc) (row tc)) (row tc)) g).map
        Prod.fst) := by
  intro rows
  induction rows with
  | nil => intro g k h; simpa using h
  | cons r rest ih =>
    intro g k h
    simp only [List.foldl_cons]
    exact ih _ k (keys_ensure_key_mono _ _ _ (keys_setdefault_append_mono _ _ _ _ h))

theorem load_fold_keys (sc tc : String) :
    ∀ (rows : List (String → String)) (g : Graph),
      ∀ row ∈ rows,
        row sc ∈ ((rows.foldl
            (fun g row =>
              ensure_key (setdefault_append g (row sc) (row tc)) (row tc)) g).map
          Prod.fst) ∧
        row tc ∈ ((rows.foldl
            (fun g row =>
              ensure_key (setdefault_append g (row sc) (row tc)) (row tc)) g).map
          Prod.fst) := by
  intro rows
  induction rows with
  | nil => intro g row h; simp at h
  | cons r rest ih =>
    intro g row h
    rcases List.mem_cons.1 h with rfl | h'
    · simp only [List.foldl_cons]
      constructor
      · exact load_fold_keys_mono sc tc rest _ _
          (keys_ensure_key_mono _ _ _ (keys_setdefault_append_self _ _ _))
      · exact load_fold_keys_mono sc tc rest _ _ (keys_ensure_key_self _ _)
    · simp only [List.foldl_cons]
      exact ih _ row h'

theorem alist_get_setdefault_append :
    ∀ (g : Graph) (k v k' : Node),
      (alist_get (setdefault_append g k v) k').getD []
        = if k' = k then (alist_get g k').getD [] ++ [v]
          else (alist_get g k').getD [] := by
  intro g
  induction g with
  | nil =>
    intro k v k'
    by_cases h : k' = k
    · simp [setdefault_append, alist_get, h]
    · simp [setdefault_append, alist_get, h]
  | cons kv rest ih =>
    intro k v k'
    obtain ⟨a, vs⟩ := kv
    simp only [setdefault_append]
    by_cases hk : k = a
    · subst hk
      by_cases hk' : k' = k
      · simp [alist_get, hk']
      · simp [alist_get, hk']
    · simp only [if_neg hk]
      by_cases hk' : k' = a
      · have hne : ¬ a = k := fun h => hk h.symm
        have hne' : ¬ k' = k := fun h => hk (h.symm.trans hk')
        simp [alist_get, hk', hne, hne']
      · simp only [alist_get, if_neg hk']
        exact ih k v k'

theorem alist_get_ensure_key :
    ∀ (g : Graph) (k k' : Node),
      (alist_get (ensure_key g k) k').getD [] = (alist_get g k').getD [] := by
  intro g
  induction g with
  | nil =>
    intro k k'
    by_cases h : k' = k
    · simp [ensure_key, alist_get, h]
    · simp [ensure_key, alist_get, h]
  | cons kv rest ih =>
    intro k k'
    obtain ⟨a, vs⟩ := kv
    simp only [ensure_key]
    by_cases hk : k = a
    · simp [if_pos hk]
    · simp only [if_neg hk]
      by_cases hk' : k' = a
      · simp [alist_get, hk']
      · simp only [alist_get, if_neg hk']
        exact ih k k'

/-- The loaded neighbour list of any node is exactly the accumulator's list
followed by the targets, in row order and with multiplicity, of the rows
whose source is that node: `setdefault(src, []).append(dst)` appends one
entry per row and `setdefault(dst, ...)` never modifies an existing list. -/
theorem load_fold_neighbors (sc tc : String) :
    ∀ (rows : List (String → String)) (g : Graph) (u : Node),
      (alist_get (rows.foldl
          (fun g row =>
            ensure_key (setdefault_append g (row sc) (row tc)) (row tc)) g) u).getD []
        = (alist_get g u).getD []
            ++ (rows.filter fun row => decide (row sc = u)).map fun row => row tc := by
  intro rows
  induction rows with
  | nil => intro g u; simp
  | cons r rest ih =>
    intro g u
    simp only [List.foldl_cons, List.filter_cons]
    rw [ih, alist_get_ensure_key, alist_get_setdefault_append]
    by_cases h : u = r sc
    · have h' : decide (r sc = u) = true := by simp [h]
      rw [if_pos h]
      simp [h']
    · have h' : decide (r sc = u) = false := by
        simp only [decide_eq_false_iff_not]
        exact fun hh => h hh.symm
      rw [if_neg h]
      simp [h']

/-- C9: `load_graph_from_edges` rejects a frame missing the source or target
column with the input-schema error; otherwise every node occurring as a
source or target of any row is a key of the returned mapping, every node's
neighbour list is exactly the sequence of targets of the rows with that
source (so duplicate (source, target) rows are preserved as repeated
neighbour entries, never deduplicated: each edge's multiplicity equals the
number of rows carrying it), and two identical rows 1→2 produce the
neighbour list ["2", "2"]. -/
theorem C9_load_graph (columns : List String) (rows : List (String → String))
    (sc tc : String) :
    ((sc ∉ columns ∨ tc ∉ columns) →
      load_graph_from_edges columns rows sc tc =
        .error "Edges DataFrame must contain the source and target columns.") ∧
    (sc ∈ columns → tc ∈ columns →
      ∃ g, load_graph_from_edges columns rows sc tc = .ok g ∧
        (∀ row ∈ rows, row sc ∈ g.map Prod.fst ∧ row tc ∈ g.map Prod.fst) ∧
        (∀ u : Node, (alist_get g u).getD []
            = (rows.filter fun row => decide (row sc = u)).map fun row => row tc) ∧
        (∀ u v : Node, ((alist_get g u).getD []).countP (fun x => decide (x = v))
            = rows.countP fun row => decide (row sc = u ∧ row tc = v))) ∧
    load_graph_from_edges ["from", "to"]
      [fun c => if c = "from" then "1" else "2", fun c => if c = "from" then "1" else "2"]
      "from" "to" = .ok [("1", ["2", "2"]), ("2", [])] := by
  refine ⟨?_, ?_, rfl⟩
  · intro h
    unfold load_graph_from_edges
    rw [if_pos h]
  · intro hsc htc
    have hcond : ¬ (sc ∉ columns ∨ tc ∉ columns) :=
      fun h => h.elim (fun h1 => h1 hsc) (fun h2 => h2 htc)
    unfold load_graph_from_edges
    rw [if_neg hcond]
    refine ⟨_, rfl, ?_, ?_, ?_⟩
    · intro row hrow
      exact load_fold_keys sc tc rows [] row hrow
    · intro u
      have h := load_fold_neighbors sc tc rows [] u
      simpa [alist_get] using h
    · intro u v
      have h := load_fold_neighbors sc tc rows [] u
      simp only [alist_get, Option.getD_none, List.nil_append] at h
      rw [h, List.countP_map, List.countP_filter]
      refine List.countP_congr ?_
      intro row _
      simp only [Function.comp, Bool.and_eq_true, decide_eq_true_eq]
      exact ⟨fun ⟨h1, h2⟩ => ⟨h2, h1⟩, fun ⟨h1, h2⟩ => ⟨h2, h1⟩⟩

theorem C9_load_graph_witness :
    (("from" : String) ∈ ["from", "to"]) ∧
    ∃ g, load_graph_from_edges ["from", "to"]
        [fun c => if c = "from" then "1" else "2"] "from" "to" = .ok g ∧
      (∀ row ∈ [fun c : String => if c = "from" then "1" else "2"],
        row "from" ∈ g.map Prod.fst ∧ row "to" ∈ g.map Prod.fst) ∧
      (∀ u : Node, (alist_get g u).getD []
          = (([fun c : String => if c = "from" then "1" else "2"]).filter
              fun row => decide (row "from" = u)).map fun row => row "to") ∧
      (∀ u v : Node, ((alist_get g u).getD []).countP (fun x => decide (x = v))
          = ([fun c : String => if c = "from" then "1" else "2"]).countP
              fun row => decide (row "from" = u ∧ row "to" = v)) :=
  ⟨by decide,
    (C9_load_graph ["from", "to"] [fun c => if c = "from" then "1" else "2"]
      "from" "to").2.1 (by decide) (by decide)⟩

end UrbanFlow
